import Mathlib

/-!
Verification of the Glassnode indicator-analysis core against its
natural-language specification.

The definitions below are a shallow embedding of the Python source:
`indicator_validation.py` (SignalGenerator, BacktestEngine),
`glassnode_information_gain_analysis.py` (InformationGainAnalyzer) and
`glassnode_advanced_analysis.py` (GlassnodeAdvancedAnalyzer).
Python floats are modelled as `ℚ` where the code only does field
arithmetic and comparisons, and as `ℝ` where logarithms occur
(entropy computations).  External library calls (sklearn estimators,
pandas `Series.corr`) are modelled as function parameters since their
values are opaque to the repository code.
-/

namespace Glassnode

/-! ## SignalGenerator (`indicator_validation.py`, `SignalGenerator`) -/

/-- One row of `SignalGenerator.thresholds`: the six ascending breakpoints
of an indicator's threshold table. -/
structure Thresholds where
  strong_buy : ℚ
  buy : ℚ
  neutral_low : ℚ
  neutral_high : ℚ
  sell : ℚ
  strong_sell : ℚ
deriving DecidableEq

/-- The `self.thresholds` dictionary of `SignalGenerator.__init__`. -/
def thresholdsFor (name : String) : Option Thresholds :=
  if name = "SOPR" then some ⟨0.95, 0.98, 1.00, 1.02, 1.05, 1.08⟩
  else if name = "MVRV" then some ⟨-0.5, 0, 1, 2, 3, 4⟩
  else if name = "NUPL" then some ⟨0, 0.25, 0.5, 0.65, 0.75, 0.85⟩
  else if name = "NVT" then some ⟨40, 50, 70, 90, 100, 120⟩
  else if name = "Puell" then some ⟨0.3, 0.5, 1, 2, 3, 4⟩
  else none

/-- The NVT threshold table (the row the source stores under key NVT). -/
def nvtThresholds : Thresholds := ⟨40, 50, 70, 90, 100, 120⟩

/-- The ascending-threshold lookup used for non-inverted indicators:
the `else` branch of `SignalGenerator.generate_signal`, as a function
of the threshold table.  This is the reference zone-to-signal mapping
against which the claimed "reversed" NVT mapping is compared. -/
def zoneLookup (t : Thresholds) (value : ℚ) : ℤ :=
  if value ≤ t.strong_buy then 2
  else if value ≤ t.buy then 1
  else if value ≤ t.neutral_low then 0
  else if value ≤ t.neutral_high then 0
  else if value ≤ t.sell then -1
  else -2

/-- `SignalGenerator.generate_signal(value, indicator)`.  The source has a
dedicated NVT branch (commented as "inverted logic") and a generic branch;
both are transcribed verbatim. -/
def generate_signal (value : ℚ) (indicator : String) : ℤ :=
  match thresholdsFor indicator with
  | none => 0
  | some t =>
    if indicator = "NVT" then
      if value ≤ t.strong_buy then 2
      else if value ≤ t.buy then 1
      else if value ≤ t.neutral_low then 0
      else if value ≤ t.neutral_high then 0
      else if value ≤ t.sell then -1
      else -2
    else
      if value ≤ t.strong_buy then 2
      else if value ≤ t.buy then 1
      else if value ≤ t.neutral_low then 0
      else if value ≤ t.neutral_high then 0
      else if value ≤ t.sell then -1
      else -2

/-- The `weights` dictionary of `SignalGenerator.generate_composite_signal`. -/
def weightFor (name : String) : Option ℚ :=
  if name = "MVRV" then some 0.35
  else if name = "NUPL" then some 0.25
  else if name = "SOPR" then some 0.20
  else if name = "NVT" then some 0.10
  else if name = "Puell" then some 0.10
  else none

/-- `SignalGenerator.generate_composite_signal(signals)`: fold over the
signal dictionary accumulating `composite` and `total_weight`, then divide
(or return 0 when no weighted indicator was present). -/
def generate_composite_signal (signals : List (String × ℤ)) : ℚ :=
  let acc := signals.foldl
    (fun acc p =>
      match weightFor p.1 with
      | some w => (acc.1 + (p.2 : ℚ) * w, acc.2 + w)
      | none => acc)
    (0, 0)
  if 0 < acc.2 then acc.1 / acc.2 else 0

/-! ## BacktestEngine (`indicator_validation.py`, `BacktestEngine`) -/

/-- One entry of `BacktestEngine.trades`.  `capital` is the engine's capital
at the start of the step (the dict is built before the equity update);
`position` is the position after this step's adjustment; `pnl` is always 0
in the source. -/
structure Trade where
  date : ℤ
  price : ℚ
  signal : ℚ
  type : String
  position : ℚ
  capital : ℚ
  pnl : ℚ
deriving DecidableEq

/-- One entry of `BacktestEngine.equity_curve`. -/
structure EquityPoint where
  date : ℤ
  price : ℚ
  capital : ℚ
  position : ℚ
  signal : ℚ
deriving DecidableEq

/-- The mutable state of a `BacktestEngine` instance. -/
structure BacktestEngine where
  initial_capital : ℚ
  capital : ℚ
  position : ℚ
  trades : List Trade
  equity_curve : List EquityPoint
deriving DecidableEq

/-- `BacktestEngine.__init__(initial_capital)`. -/
def BacktestEngine.init (initial_capital : ℚ) : BacktestEngine :=
  ⟨initial_capital, initial_capital, 0, [], []⟩

/-- The signal-to-target-position bands at the top of
`BacktestEngine.execute_trade`. -/
def targetPosition (signal position : ℚ) : ℚ :=
  if 1.5 < signal then 1
  else if 0.5 < signal then 0.6
  else if signal < -1.5 then 0
  else if signal < -0.5 then 0.3
  else position

/-- `BacktestEngine.execute_trade(date, price, signal)`.  In every branch the
position becomes the target (in the HOLD branch the target equals the old
position).  The capital update happens after the position adjustment and
uses `self.position`, i.e. the new position; it divides by the previous
equity point's price.  No chronological-order check is performed on `date`. -/
def BacktestEngine.execute_trade (e : BacktestEngine) (date : ℤ) (price signal : ℚ) :
    BacktestEngine :=
  let target := targetPosition signal e.position
  let ttype : String :=
    if e.position < target then "BUY"
    else if target < e.position then "SELL"
    else "HOLD"
  let tr : Trade := ⟨date, price, signal, ttype, target, e.capital, 0⟩
  let newCapital : ℚ :=
    match e.equity_curve.getLast? with
    | none => e.capital
    | some prev => e.capital * (1 + target * ((price - prev.price) / prev.price))
  let ep : EquityPoint := ⟨date, price, newCapital, target, signal⟩
  ⟨e.initial_capital, newCapital, target, e.trades ++ [tr], e.equity_curve ++ [ep]⟩

/-- Replay a whole `(date, price, signal)` stream through a freshly
initialized engine, as the validation scripts' backtest loops do. -/
def runBacktest (initial_capital : ℚ) (stream : List (ℤ × ℚ × ℚ)) : BacktestEngine :=
  stream.foldl (fun e step => e.execute_trade step.1 step.2.1 step.2.2)
    (BacktestEngine.init initial_capital)

/-- The running `(winning_trades, total_trades)` counters of
`BacktestEngine.calculate_win_rate`: the loop inspects each adjacent index
pair `(i-1, i)` and counts it only when `trades[i]` is a SELL and
`trades[i-1]` is a BUY. -/
def winCounts : List Trade → ℕ × ℕ
  | [] => (0, 0)
  | [_] => (0, 0)
  | a :: b :: rest =>
    let wt := winCounts (b :: rest)
    if b.type = "SELL" ∧ a.type = "BUY" then
      (if a.capital < b.capital then wt.1 + 1 else wt.1, wt.2 + 1)
    else wt

/-- `BacktestEngine.calculate_win_rate()`. -/
def calculate_win_rate (trades : List Trade) : ℚ :=
  let wt := winCounts trades
  if wt.2 = 0 then 0 else ((wt.1 : ℚ) / (wt.2 : ℚ)) * 100

/-- A stream is chronological when its timestamps strictly increase. -/
def Chronological (stream : List (ℤ × ℚ × ℚ)) : Prop :=
  stream.Chain' (fun a b => a.1 < b.1)

/-! ## InformationGainAnalyzer (`glassnode_information_gain_analysis.py`) -/

/-- The 1e-10 smoothing constant the source adds inside `np.log2` in
`calculate_information_gain`. -/
noncomputable def epsIG : ℝ := 1 / 10 ^ 10

/-- `value_counts(normalize=True)` of one label: the observed relative
frequency of `v` in `l`. -/
noncomputable def freqR (v : ℤ) (l : List ℤ) : ℝ := (l.count v : ℝ) / (l.length : ℝ)

/-- `-np.sum(probs * np.log2(probs + 1e-10))` over the observed values of
`l`: the entropy computation of `calculate_information_gain`, which adds
1e-10 inside the logarithm. -/
noncomputable def entropySm (l : List ℤ) : ℝ :=
  -((l.dedup.map (fun v => freqR v l * Real.logb 2 (freqR v l + epsIG))).sum)

/-- The conditional-entropy loop of `calculate_information_gain`:
`H(Y|X) = Σ_x p(x) · H_sm(Y|X=x)` over the observed values of X, with the
same 1e-10 smoothing inside; the inner emptiness test is the source's
`mask.sum() > 0` check. -/
noncomputable def condEntropySm (ps : List (ℤ × ℤ)) : ℝ :=
  let xs := ps.map Prod.fst
  (xs.dedup.map (fun x =>
    let ys := (ps.filter (fun p => p.1 = x)).map Prod.snd
    if 0 < ys.length then freqR x xs * entropySm ys else 0)).sum

/-- `sklearn.metrics.mutual_info_score` on two discrete label sequences:
`Σ p(x,y)·ln(p(x,y)/(p(x)p(y)))` over the observed joint pairs (natural
logarithm; zero-count pairs absent). -/
noncomputable def mutual_info_score (ps : List (ℤ × ℤ)) : ℝ :=
  (ps.dedup.map (fun q =>
    let pxy : ℝ := (ps.count q : ℝ) / (ps.length : ℝ)
    pxy * Real.log (pxy / (freqR q.1 (ps.map Prod.fst) * freqR q.2 (ps.map Prod.snd))))).sum

/-- The dictionary returned by `calculate_information_gain` — the
InformationScore of the spec. -/
structure IGRecord where
  information_gain : ℝ
  gain_ratio : ℝ
  symmetric_uncertainty : ℝ
  mutual_information_discrete : ℝ
  normalized_mi_discrete : ℝ
  target_entropy : ℝ
  conditional_entropy : ℝ
  indicator_entropy : ℝ
  reduction_ratio : ℝ

/-- Lines 118–141 of `glassnode_information_gain_analysis.py`: the
post-discretization body of `calculate_information_gain`, acting on the
zipped discrete label sequences (indicator label, target label). -/
noncomputable def igFromDiscrete (ps : List (ℤ × ℤ)) : IGRecord :=
  let H_target := entropySm (ps.map Prod.snd)
  let H_cond := condEntropySm ps
  let ig := max 0 (H_target - H_cond)
  let H_ind := entropySm (ps.map Prod.fst)
  let mi := mutual_info_score ps
  ⟨ig,
   if 0 < H_ind then ig / H_ind else 0,
   if 0 < H_target + H_ind then 2 * ig / (H_target + H_ind) else 0,
   mi,
   if 0 < min H_target H_ind then mi / min H_target H_ind else 0,
   H_target, H_cond, H_ind,
   if 0 < H_target then ig / H_target else 0⟩

/-- Ascending sort of a rational list. -/
def sortedQ (l : List ℚ) : List ℚ := l.mergeSort (fun a b => decide (a ≤ b))

/-- `np.percentile` with linear interpolation, at fraction `q ∈ [0,1]`,
as used by `pd.qcut`'s quantile computation. -/
def percentileQ (l : List ℚ) (q : ℚ) : ℚ :=
  let s := sortedQ l
  if s.length = 0 then 0
  else
    let idx : ℚ := q * ((s.length : ℚ) - 1)
    let i : ℕ := idx.floor.toNat
    let lo := s.getD i 0
    let hi := s.getD (min (i + 1) (s.length - 1)) 0
    lo + (idx - (i : ℚ)) * (hi - lo)

/-- The bin edges of `pd.qcut(l, k, duplicates='drop')`: the k+1 evenly
spaced quantiles with duplicate edges dropped. -/
def qcutEdges (l : List ℚ) (k : ℕ) : List ℚ :=
  ((List.range (k + 1)).map (fun i => percentileQ l ((i : ℚ) / (k : ℚ)))).dedup

/-- `pd.qcut(l, k, labels=False, duplicates='drop')`: each value is
labelled by the index of its half-open quantile interval (lowest edge
included in bin 0); `none` models the ValueError (caught by the source)
raised when the deduplicated edges collapse below two. -/
def qcutLabels (l : List ℚ) (k : ℕ) : Option (List ℤ) :=
  let e := qcutEdges l k
  if e.length < 2 then none
  else some (l.map (fun v => ((e.tail.takeWhile (fun b => decide (b < v))).length : ℤ)))

/-- `pd.cut(l, k, labels=False)` (the source's fallback discretizer):
equal-width bins over [min,max], the leftmost edge nudged down (and a
degenerate range widened) as pandas does so the minimum lands in bin 0. -/
def cutLabels (l : List ℚ) (k : ℕ) : List ℤ :=
  if l.isEmpty then []
  else
    let s := sortedQ l
    let mn := s.headD 0
    let mx := s.getLastD 0
    let base := if mn = mx then mn - 1 / 1000 else mn
    let top := if mn = mx then mx + 1 / 1000 else mx
    let e0 := (List.range (k + 1)).map (fun i => base + (i : ℚ) * ((top - base) / (k : ℚ)))
    let e := match e0 with
      | [] => []
      | a :: rest => (if mn = mx then a else a - (mx - mn) / 1000) :: rest
    l.map (fun v => ((e.tail.takeWhile (fun b => decide (b < v))).length : ℤ))

/-- The try/except discretization block of `calculate_information_gain`:
quantile binning for both columns, both falling back to equal-width
binning when quantile binning fails. -/
def discretizePair (ind tgt : List ℚ) : List ℤ × List ℤ :=
  match qcutLabels ind 10, qcutLabels tgt 10 with
  | some a, some b => (a, b)
  | _, _ => (cutLabels ind 10, cutLabels tgt 10)

/-- `InformationGainAnalyzer.calculate_information_gain(indicator, target,
bins=10)`: drop rows with a missing value, return the empty dict
(modelled as `none`) when fewer than 100 valid rows remain, otherwise
discretize both columns and score them. -/
noncomputable def calculate_information_gain (data : List (Option ℚ × Option ℚ)) :
    Option IGRecord :=
  let clean := data.filterMap (fun p => p.1.bind (fun a => p.2.map (fun b => (a, b))))
  if clean.length < 100 then none
  else
    let d := discretizePair (clean.map Prod.fst) (clean.map Prod.snd)
    some (igFromDiscrete (d.1.zip d.2))

/-- `np.histogram(l, bins=k)` counts: equal-width bins over [min,max]
(widened by ±0.5 when the range is degenerate, as numpy does),
right-open except the last. -/
def histCounts (l : List ℚ) (k : ℕ) : List ℕ :=
  if l.isEmpty then List.replicate k 0
  else
    let s := sortedQ l
    let mn0 := s.headD 0
    let mx0 := s.getLastD 0
    let mn := if mn0 = mx0 then mn0 - 1 / 2 else mn0
    let mx := if mn0 = mx0 then mx0 + 1 / 2 else mx0
    (List.range k).map (fun i =>
      let lo := mn + (i : ℚ) * ((mx - mn) / (k : ℚ))
      let hi := mn + ((i : ℚ) + 1) * ((mx - mn) / (k : ℚ))
      (l.filter (fun v => decide (lo ≤ v) &&
        (decide (v < hi) || (decide (i = k - 1) && decide (v ≤ mx))))).length)

/-- `InformationGainAnalyzer.calculate_entropy(data, bins)`: histogram
probabilities, zero bins removed, `-Σ p·log2 p` (no smoothing here). -/
noncomputable def calculate_entropy (l : List ℚ) (k : ℕ) : ℝ :=
  let h := histCounts l k
  let n := h.sum;
  -(((h.filter (fun c => decide (0 < c))).map
      (fun c => ((c : ℝ) / (n : ℝ)) * Real.logb 2 ((c : ℝ) / (n : ℝ)))).sum)

/-- The computations the analyzer delegates to libraries outside this
repository: sklearn's randomized mutual-information estimators, sklearn's
KBinsDiscretizer, the KBinsDiscretizer-based transfer-entropy core, and
pandas `Series.corr`.  They enter the embedding as opaque parameters; no
claim depends on their values. -/
structure ExternalEstimators where
  miRegression : List (ℚ × ℚ) → ℝ
  miClassif : List (ℚ × ℚ) → ℝ
  kbins5 : List ℚ → List ℚ
  teCore : List (Option ℚ) → List (Option ℚ) → List ℚ → ℝ
  corr : List (ℚ × Option ℚ) → ℝ

/-- The dictionary returned by `calculate_mutual_information`. -/
structure MIRecord where
  mutual_information : ℝ
  normalized_mi : ℝ
  max_possible_mi : ℝ

/-- `InformationGainAnalyzer.calculate_mutual_information(indicator,
target, discrete)`: drop missing rows, return `{}` (`none`) below 100
rows, otherwise an sklearn mutual-information estimate normalized by a
histogram-entropy upper bound. -/
noncomputable def calculate_mutual_information (E : ExternalEstimators)
    (pairs : List (ℚ × Option ℚ)) (discrete : Bool) : Option MIRecord :=
  let data := pairs.filterMap (fun p => p.2.map (fun y => (p.1, y)))
  if data.length < 100 then none
  else
    let y := data.map Prod.snd
    if discrete then
      let mi := E.miClassif data
      let maxmi := calculate_entropy (E.kbins5 y) 5
      some ⟨mi, if 0 < maxmi then mi / maxmi else 0, maxmi⟩
    else
      let mi := E.miRegression data
      let maxmi := calculate_entropy y 10
      some ⟨mi, if 0 < maxmi then mi / maxmi else 0, maxmi⟩

/-- `InformationGainAnalyzer.calculate_transfer_entropy(indicator, target,
lag, bins=5)`: 0 below the `lag+100` sample guard; past the guard the
source discretizes the lagged slices with sklearn's KBinsDiscretizer and
sums crosstab terms — that core stays an external parameter. -/
noncomputable def calculate_transfer_entropy (E : ExternalEstimators)
    (ind : List ℚ) (target : List (Option ℚ)) (lag : ℕ) : ℝ :=
  if target.length < lag + 100 then 0
  else E.teCore (target.drop lag) (target.take (target.length - lag))
    (ind.take (ind.length - lag))

/-- Inner join of two timestamp-indexed series on their index
(`pd.merge(..., how='inner')`; timestamps are unique per series). -/
def innerJoin (a b : List (ℤ × ℚ)) : List (ℤ × ℚ × ℚ) :=
  a.filterMap (fun p => (b.lookup p.1).map (fun v => (p.1, p.2, v)))

/-- One value row of the per-horizon dictionary built by
`analyze_predictive_information`. -/
structure HorizonMetrics where
  information_gain : ℝ
  gain_ratio : ℝ
  symmetric_uncertainty : ℝ
  reduction_ratio : ℝ
  mutual_info_regression : ℝ
  normalized_mi_regression : ℝ
  mutual_info_classification : ℝ
  normalized_mi_classification : ℝ
  transfer_entropy : ℝ
  correlation : ℝ
  correlation_squared : ℝ

/-- The loop body of `analyze_predictive_information` for one horizon:
build the future return `price[t+h]/price[t] − 1` (missing for the last h
rows), run the information-gain, mutual-information and transfer-entropy
analyses and the external correlation; absent sub-results (`{}`) default
every derived field to 0 through `dict.get(..., 0)`. -/
noncomputable def horizonRecord (E : ExternalEstimators) (ind prices : List ℚ)
    (h : ℕ) : HorizonMetrics :=
  let n := prices.length
  let fut : List (Option ℚ) := (List.range n).map (fun t =>
    if t + h < n then some (prices.getD (t + h) 0 / prices.getD t 0 - 1) else none)
  let igc := calculate_information_gain ((ind.map some).zip fut)
  let mireg := calculate_mutual_information E (ind.zip fut) false
  let micls := calculate_mutual_information E (ind.zip fut) true
  let te := calculate_transfer_entropy E ind fut h
  let c := E.corr (ind.zip fut)
  ⟨(igc.map IGRecord.information_gain).getD 0,
   (igc.map IGRecord.gain_ratio).getD 0,
   (igc.map IGRecord.symmetric_uncertainty).getD 0,
   (igc.map IGRecord.reduction_ratio).getD 0,
   (mireg.map MIRecord.mutual_information).getD 0,
   (mireg.map MIRecord.normalized_mi).getD 0,
   (micls.map MIRecord.mutual_information).getD 0,
   (micls.map MIRecord.normalized_mi).getD 0,
   te, c, c ^ 2⟩

/-- `InformationGainAnalyzer.analyze_predictive_information(indicator_df,
price_df, horizons)`: inner-join the two series and store a metrics entry
for EVERY requested horizon — the per-horizon dictionary assignment is
unconditional in the source. -/
noncomputable def analyze_predictive_information (E : ExternalEstimators)
    (indicator price : List (ℤ × ℚ)) (horizons : List ℕ) :
    List (ℕ × HorizonMetrics) :=
  let data := innerJoin indicator price
  horizons.map (fun h =>
    (h, horizonRecord E (data.map (fun r => r.2.1)) (data.map (fun r => r.2.2)) h))

/-! ## GlassnodeAdvancedAnalyzer (`glassnode_advanced_analysis.py`) -/

/-- `scipy.stats.entropy(pk)`: normalize the mass vector and take
`-Σ p·ln p` (natural logarithm), zero-mass entries contributing 0. -/
noncomputable def scipyEntropy (pk : List ℚ) : ℝ :=
  let s := pk.sum;
  -(((pk.filter (fun p => decide (0 < p))).map
      (fun p => ((p / s : ℚ) : ℝ) * Real.log ((p / s : ℚ) : ℝ))).sum)

/-- `np.bincount(l, minlength=m)` for nonnegative integer labels. -/
def bincount (l : List ℤ) (m : ℕ) : List ℕ :=
  let top := max m (match l with
    | [] => 0
    | _ => (l.map Int.toNat).foldl max 0 + 1)
  (List.range top).map (fun i => l.count (i : ℤ))

/-- One value row of the per-horizon dictionary built by
`calculate_information_gain_multi_horizon`. -/
structure AdvMetrics where
  information_gain : ℝ
  normalized_mi : ℝ
  correlation : ℝ
  entropy_price : ℝ
  entropy_conditional : ℝ
  reduction_ratio : ℝ
  sample_size : ℕ

/-- The loop body of `calculate_information_gain_multi_horizon` for one
horizon: `none` models `continue` — taken when the joined data has fewer
than 100 rows, when fewer than 50 rows keep a future price, or when
quantile discretization fails; otherwise the horizon is scored with scipy
entropies.  Pandas `Series.corr` stays an external parameter. -/
noncomputable def advHorizonScore (corrF : List (ℚ × ℚ) → ℝ)
    (df : List (ℤ × ℚ × ℚ)) (horizon : ℕ) : Option AdvMetrics :=
  if df.length < 100 then none
  else
    let n := df.length
    let ind := df.map (fun r => r.2.1)
    let prices := df.map (fun r => r.2.2)
    let rows := (List.range (n - horizon)).map (fun t =>
      (ind.getD t 0, prices.getD (t + horizon) 0 / prices.getD t 0 - 1))
    if rows.length < 50 then none
    else
      match qcutLabels (rows.map Prod.fst) 10, qcutLabels (rows.map Prod.snd) 10 with
      | some ibins, some pbins =>
        let H_price := scipyEntropy
          ((bincount pbins 0).map (fun c => (c : ℚ) / (pbins.length : ℚ)))
        let H_conditional := ((List.range 10).map (fun i =>
          let cnt := ibins.count (i : ℤ)
          let p_ind : ℚ := (cnt : ℚ) / (ibins.length : ℚ)
          if 0 < p_ind ∧ 1 < cnt then
            let pib := ((ibins.zip pbins).filter
              (fun q => decide (q.1 = (i : ℤ)))).map Prod.snd
            if 0 < pib.length then
              p_ind * scipyEntropy
                ((bincount pib 10).map (fun c => (c : ℚ) / (pib.length : ℚ)))
            else 0
          else 0)).sum
        let ig := max 0 (H_price - H_conditional)
        some
          ⟨ig,
           if 0 < H_price then ig / H_price else 0,
           corrF rows,
           H_price,
           H_conditional,
           if 0 < H_price then ig / H_price else 0,
           rows.length⟩
      | _, _ => none

/-- `GlassnodeAdvancedAnalyzer.calculate_information_gain_multi_horizon`:
run `advHorizonScore` on the inner-joined frame for each horizon, keeping
only the horizons it scores. -/
noncomputable def calculate_information_gain_multi_horizon
    (corrF : List (ℚ × ℚ) → ℝ) (indicator price : List (ℤ × ℚ))
    (horizons : List ℕ) : List (ℕ × AdvMetrics) :=
  horizons.filterMap (fun horizon =>
    (advHorizonScore corrF (innerJoin indicator price) horizon).map
      (fun m => (horizon, m)))

/-- `np.argmax`: index of the first occurrence of the maximum. -/
noncomputable def argmaxIdx : List ℝ → ℕ
  | [] => 0
  | [_] => 0
  | a :: b :: rest =>
    let j := argmaxIdx (b :: rest)
    if a < (b :: rest).getD j 0 then j + 1 else 0

/-- The dictionary returned by `find_optimal_horizon`. -/
structure OptimalHorizon where
  optimal_horizon_ig : ℕ
  max_ig : ℝ
  optimal_horizon_mi : ℕ
  max_mi : ℝ
  optimal_horizon_corr : ℕ
  max_correlation : ℝ
  all_horizons : List ℕ
  all_ig : List ℝ

/-- `GlassnodeAdvancedAnalyzer.find_optimal_horizon(multi_horizon_results)`:
`{}` (`none`) on an empty map; otherwise `np.argmax` over the
information-gain, normalized-MI and |correlation| value lists, reporting
the horizon at each argmax index. -/
noncomputable def find_optimal_horizon (m : List (ℕ × AdvMetrics)) :
    Option OptimalHorizon :=
  if m.isEmpty then none
  else
    let horizons := m.map Prod.fst
    let ig := m.map (fun p => AdvMetrics.information_gain p.2)
    let mi := m.map (fun p => AdvMetrics.normalized_mi p.2)
    let corr := m.map (fun p => |AdvMetrics.correlation p.2|)
    some ⟨horizons.getD (argmaxIdx ig) 0, ig.getD (argmaxIdx ig) 0,
          horizons.getD (argmaxIdx mi) 0, mi.getD (argmaxIdx mi) 0,
          horizons.getD (argmaxIdx corr) 0, corr.getD (argmaxIdx corr) 0,
          horizons, ig⟩

/-- A concrete five-point constant series used as evaluation input. -/
def exSeries : List (ℤ × ℚ) := [(0, 1), (1, 1), (2, 1), (3, 1), (4, 1)]

/-- A concrete instantiation of the external estimators (all zero), used
to evaluate the analyzers on explicit inputs. -/
noncomputable def zeroEstimators : ExternalEstimators :=
  ⟨fun _ => 0, fun _ => 0, fun _ => [], fun _ _ _ => 0, fun _ => 0⟩

/-! ## Helper lemmas for the entropy theorems -/

/-- The smoothing constant makes `log2(1 + ε)` strictly positive. -/
theorem logb_one_add_eps_pos : 0 < Real.logb 2 (1 + epsIG) :=
  Real.logb_pos (by norm_num) (by norm_num [epsIG])

/-- The observed relative frequencies over the deduplicated values sum
to 1. -/
theorem freq_sum (l : List ℤ) (h : l ≠ []) :
    (l.dedup.map (fun v => freqR v l)).sum = 1 := by
  have hn : (l.length : ℝ) ≠ 0 := by
    have := List.length_pos.mpr h
    positivity
  unfold freqR
  have hrw : (fun v => (l.count v : ℝ) / (l.length : ℝ)) =
      fun v => (l.count v : ℝ) * ((l.length : ℝ))⁻¹ := by
    funext v
    rw [div_eq_mul_inv]
  rw [hrw, List.sum_map_mul_right]
  have hcast : (l.dedup.map fun v => ((l.count v : ℕ) : ℝ)).sum =
      (((l.dedup.map fun v => l.count v).sum : ℕ) : ℝ) := by
    rw [Nat.cast_list_sum, List.map_map]
    rfl
  rw [hcast, List.sum_map_count_dedup_eq_length]
  exact mul_inv_cancel₀ hn

/-- An observed value has positive relative frequency. -/
theorem freq_mem_pos {l : List ℤ} {v : ℤ} (hv : v ∈ l.dedup) : 0 < freqR v l := by
  have hm : v ∈ l := List.mem_dedup.mp hv
  unfold freqR
  have hc : 0 < l.count v := List.count_pos_iff.mpr hm
  have hl : 0 < l.length := List.length_pos.mpr (List.ne_nil_of_mem hm)
  exact div_pos (by exact_mod_cast hc) (by exact_mod_cast hl)

/-- A relative frequency never exceeds 1. -/
theorem freq_le_one {l : List ℤ} (v : ℤ) (h : l ≠ []) : freqR v l ≤ 1 := by
  unfold freqR
  rw [div_le_one (by exact_mod_cast List.length_pos.mpr h)]
  exact_mod_cast List.count_le_length v l

/-- The smoothed entropy of a nonempty label sequence is bounded below by
`-log2(1 + ε)` (it can be slightly negative, but no more than that). -/
theorem entropySm_ge {l : List ℤ} (h : l ≠ []) :
    -(Real.logb 2 (1 + epsIG)) ≤ entropySm l := by
  unfold entropySm
  rw [neg_le_neg_iff]
  calc (l.dedup.map fun v => freqR v l * Real.logb 2 (freqR v l + epsIG)).sum
      ≤ (l.dedup.map fun v => freqR v l * Real.logb 2 (1 + epsIG)).sum := by
        apply List.sum_le_sum
        intro v hv
        have h1 : 0 < freqR v l := freq_mem_pos hv
        have h2 : freqR v l ≤ 1 := freq_le_one v h
        have heps : (0 : ℝ) < epsIG := by norm_num [epsIG]
        have hlog : Real.logb 2 (freqR v l + epsIG) ≤ Real.logb 2 (1 + epsIG) :=
          Real.logb_le_logb_of_le (by norm_num) (by positivity) (by linarith)
        exact mul_le_mul_of_nonneg_left hlog h1.le
    _ = (l.dedup.map fun v => freqR v l).sum * Real.logb 2 (1 + epsIG) := by
        rw [← List.sum_map_mul_right]
    _ = Real.logb 2 (1 + epsIG) := by rw [freq_sum l h, one_mul]

/-- The smoothed conditional entropy of a nonempty pair sequence is
bounded below by `-log2(1 + ε)`. -/
theorem condEntropySm_ge {ps : List (ℤ × ℤ)} (h : ps ≠ []) :
    -(Real.logb 2 (1 + epsIG)) ≤ condEntropySm ps := by
  have hxs : ps.map Prod.fst ≠ [] := by simpa using h
  simp only [condEntropySm]
  calc -(Real.logb 2 (1 + epsIG))
      = ((ps.map Prod.fst).dedup.map fun x =>
          freqR x (ps.map Prod.fst) * -(Real.logb 2 (1 + epsIG))).sum := by
        rw [List.sum_map_mul_right, freq_sum _ hxs, one_mul]
    _ ≤ _ := by
        apply List.sum_le_sum
        intro x hx
        have hxmem : x ∈ ps.map Prod.fst := List.mem_dedup.mp hx
        rcases List.mem_map.mp hxmem with ⟨p, hp, hpx⟩
        have hys : (ps.filter (fun q => q.1 = x)).map Prod.snd ≠ [] := by
          have hpf : p ∈ ps.filter (fun q => q.1 = x) :=
            List.mem_filter.mpr ⟨hp, by simp [hpx]⟩
          simp only [ne_eq, List.map_eq_nil_iff]
          exact List.ne_nil_of_mem hpf
        have hlen : 0 < ((ps.filter (fun q => q.1 = x)).map Prod.snd).length :=
          List.length_pos.mpr hys
        rw [if_pos hlen]
        have hfreq : 0 < freqR x (ps.map Prod.fst) := freq_mem_pos hx
        exact mul_le_mul_of_nonneg_left (entropySm_ge hys) hfreq.le

/-! ## Helper lemmas for the backtest theorems -/

/-- The win-rate loop counters agree with declarative counts over the
adjacent-pair list. -/
theorem winCounts_eq : ∀ ts : List Trade,
    winCounts ts =
      ((ts.zip ts.tail).countP fun p =>
          decide ((p.2.type = "SELL" ∧ p.1.type = "BUY") ∧ p.1.capital < p.2.capital),
       (ts.zip ts.tail).countP fun p => decide (p.2.type = "SELL" ∧ p.1.type = "BUY"))
  | [] => rfl
  | [_] => rfl
  | a :: b :: rest => by
    have ih := winCounts_eq (b :: rest)
    unfold winCounts
    rw [ih]
    by_cases h1 : b.type = "SELL" ∧ a.type = "BUY"
    · by_cases h2 : a.capital < b.capital
      · simp [h1, h2, List.countP_cons]
      · simp [h1, h2, List.countP_cons]
    · simp [h1, List.countP_cons]

/-- Every weight stored in the composite-signal weight table is positive. -/
theorem weightFor_pos {name : String} {w : ℚ} (h : weightFor name = some w) : 0 < w := by
  unfold weightFor at h
  split_ifs at h <;> simp_all <;> (rw [← h]; norm_num)

/-- The composite-signal fold accumulates the weighted-signal sum and the
total weight of the present indicators. -/
theorem composite_foldl (signals : List (String × ℤ)) (a b : ℚ) :
    signals.foldl
      (fun acc p =>
        match weightFor p.1 with
        | some w => (acc.1 + (p.2 : ℚ) * w, acc.2 + w)
        | none => acc) (a, b) =
    (a + (signals.filterMap (fun p => (weightFor p.1).map (fun w => (p.2 : ℚ) * w))).sum,
     b + (signals.filterMap (fun p => weightFor p.1)).sum) := by
  induction signals generalizing a b with
  | nil => simp
  | cons hd tl ih =>
    cases h : weightFor hd.1 with
    | none => simp [List.foldl_cons, h, ih]
    | some w => simp [List.foldl_cons, h, ih, add_assoc]

/-- The weighted-signal sum of in-range signals is bounded by twice the
total weight. -/
theorem composite_sum_bound (signals : List (String × ℤ))
    (h : ∀ p ∈ signals, -2 ≤ p.2 ∧ p.2 ≤ 2) :
    |(signals.filterMap (fun p => (weightFor p.1).map (fun w => (p.2 : ℚ) * w))).sum| ≤
      2 * (signals.filterMap (fun p => weightFor p.1)).sum := by
  induction signals with
  | nil => simp
  | cons hd tl ih =>
    have hhd := h hd (by simp)
    have htl := ih (fun p hp => h p (by simp [hp]))
    cases hw : weightFor hd.1 with
    | none => simpa [hw] using htl
    | some w =>
      have hwpos : 0 < w := weightFor_pos hw
      have habs : |(hd.2 : ℚ)| ≤ 2 := by
        rw [abs_le]
        constructor
        · exact_mod_cast hhd.1
        · exact_mod_cast hhd.2
      simp only [List.filterMap_cons, hw, Option.map_some', List.sum_cons]
      calc |(hd.2 : ℚ) * w +
              (tl.filterMap (fun p => (weightFor p.1).map (fun w => (p.2 : ℚ) * w))).sum|
          ≤ |(hd.2 : ℚ) * w| +
              |(tl.filterMap (fun p => (weightFor p.1).map (fun w => (p.2 : ℚ) * w))).sum| :=
            abs_add _ _
        _ ≤ 2 * w + 2 * (tl.filterMap (fun p => weightFor p.1)).sum := by
            gcongr
            calc |(hd.2 : ℚ) * w| = |(hd.2 : ℚ)| * w := by
                  rw [abs_mul, abs_of_pos hwpos]
              _ ≤ 2 * w := mul_le_mul_of_nonneg_right habs hwpos.le
        _ = 2 * (w + (tl.filterMap (fun p => weightFor p.1)).sum) := by ring

/-- Members of the present-weight list are positive. -/
theorem filterMap_weight_pos (signals : List (String × ℤ)) :
    ∀ w ∈ signals.filterMap (fun p => weightFor p.1), 0 < w := by
  intro w hw
  rcases List.mem_filterMap.mp hw with ⟨p, _, hp⟩
  exact weightFor_pos hp

/-! ## Claim theorems: backtest and signal generation -/

/-- C1 (counterexample): the claim says the capital update scales the
realized return by the position held before this step's adjustment.  On
the stream [(1,100,signal 0), (2,200,signal 2)] the position before the
second step is 0, so the claim predicts unchanged capital; the code
multiplies by the newly adjusted position 1 and doubles the capital. -/
theorem C1_counterexample :
    ¬ (((runBacktest 10000 [(1, 100, 0)]).execute_trade 2 200 2).capital =
        (runBacktest 10000 [(1, 100, 0)]).capital *
          (1 + (runBacktest 10000 [(1, 100, 0)]).position * (200 / 100 - 1))) := by
  norm_num [runBacktest, BacktestEngine.execute_trade, BacktestEngine.init, targetPosition]

/-- C1 (amended): when a prior equity point exists, `execute_trade`
multiplies capital by 1 plus the realized price return scaled by the
position **after** this step's signal-driven adjustment (the target
position), not the position held over the elapsed interval. -/
theorem C1_amended (e : BacktestEngine) (date : ℤ) (price signal : ℚ)
    (prev : EquityPoint) (h : e.equity_curve.getLast? = some prev) :
    (e.execute_trade date price signal).capital =
      e.capital * (1 + targetPosition signal e.position *
        ((price - prev.price) / prev.price)) := by
  simp [BacktestEngine.execute_trade, h]

/-- C1 witness: the amended capital-update law evaluated on a concrete
two-step stream. -/
theorem C1_amended_witness :
    (runBacktest 10000 [(1, 100, 0)]).equity_curve.getLast? =
        some (⟨1, 100, 10000, 0, 0⟩ : EquityPoint) ∧
    ((runBacktest 10000 [(1, 100, 0)]).execute_trade 2 200 2).capital =
      (runBacktest 10000 [(1, 100, 0)]).capital *
        (1 + targetPosition 2 (runBacktest 10000 [(1, 100, 0)]).position *
          ((200 - (⟨1, 100, 10000, 0, 0⟩ : EquityPoint).price) /
            (⟨1, 100, 10000, 0, 0⟩ : EquityPoint).price)) :=
  ⟨by norm_num [runBacktest, BacktestEngine.execute_trade, BacktestEngine.init, targetPosition],
    C1_amended _ 2 200 2 _
      (by norm_num [runBacktest, BacktestEngine.execute_trade, BacktestEngine.init,
        targetPosition])⟩

/-- C2 (counterexample): feeding a non-chronological tuple (timestamp 1
after timestamp 2) is not rejected: the engine appends a trade and an
equity point and updates capital exactly as for any other input. -/
theorem C2_counterexample :
    ¬ Chronological [(2, 100, 2), (1, 50, 0)] ∧
    ¬ (((runBacktest 10000 [(2, 100, 2)]).execute_trade 1 50 0).trades.length =
          (runBacktest 10000 [(2, 100, 2)]).trades.length ∧
        ((runBacktest 10000 [(2, 100, 2)]).execute_trade 1 50 0).equity_curve.length =
          (runBacktest 10000 [(2, 100, 2)]).equity_curve.length ∧
        ((runBacktest 10000 [(2, 100, 2)]).execute_trade 1 50 0).capital =
          (runBacktest 10000 [(2, 100, 2)]).capital) := by
  constructor
  · norm_num [Chronological, List.chain'_cons, List.chain'_singleton]
  · norm_num [runBacktest, BacktestEngine.execute_trade, BacktestEngine.init, targetPosition]

/-- C2 (amended): `execute_trade` performs no chronological-order check at
all: every call, whatever its timestamp, appends exactly one trade and one
equity point, and the resulting capital and position do not depend on the
timestamp. -/
theorem C2_amended (e : BacktestEngine) (d d' : ℤ) (price signal : ℚ) :
    (e.execute_trade d price signal).trades.length = e.trades.length + 1 ∧
    (e.execute_trade d price signal).equity_curve.length = e.equity_curve.length + 1 ∧
    (e.execute_trade d price signal).capital = (e.execute_trade d' price signal).capital ∧
    (e.execute_trade d price signal).position = (e.execute_trade d' price signal).position := by
  refine ⟨?_, ?_, rfl, rfl⟩ <;> simp [BacktestEngine.execute_trade]

/-- C4 (counterexample): at value 30 (the strong-buy zone of the NVT
table) the code returns +2, the same value the non-inverted lookup
returns, not its negation −2 as the claim states. -/
theorem C4_counterexample :
    ¬ (generate_signal 30 ("NVT") = -(zoneLookup nvtThresholds 30)) := by
  have h : thresholdsFor ("NVT") = some nvtThresholds := rfl
  unfold generate_signal
  rw [h]
  norm_num [zoneLookup, nvtThresholds]

/-- C4 (amended): the NVT branch of `generate_signal` applies the same
ascending-threshold lookup with the **same** zone-to-signal mapping as
non-inverted indicators — the branch is a verbatim duplicate, and the
inversion lives only in the semantics of the NVT threshold values. -/
theorem C4_amended (value : ℚ) :
    generate_signal value ("NVT") = zoneLookup nvtThresholds value := by
  have h : thresholdsFor ("NVT") = some nvtThresholds := rfl
  unfold generate_signal
  rw [h]
  simp [zoneLookup]

/-- C6 (counterexample): a run producing the trade log BUY, HOLD, SELL
with capital rising from 10000 (at the BUY) to 20000 (at the SELL) is one
winning BUY→SELL round-trip, so the claim predicts a 100% win rate; the
code's win rate is 0 because the BUY and the SELL are not adjacent. -/
theorem C6_counterexample :
    calculate_win_rate (runBacktest 10000 [(1, 100, 2), (2, 200, 0), (3, 300, -2)]).trades = 0 ∧
    (runBacktest 10000 [(1, 100, 2), (2, 200, 0), (3, 300, -2)]).trades.map Trade.type =
      ["BUY", "HOLD", "SELL"] ∧
    (runBacktest 10000 [(1, 100, 2), (2, 200, 0), (3, 300, -2)]).trades.map Trade.capital =
      [10000, 10000, 20000] := by
  have htr : (runBacktest 10000 [(1, 100, 2), (2, 200, 0), (3, 300, -2)]).trades =
      [⟨1, 100, 2, "BUY", 1, 10000, 0⟩, ⟨2, 200, 0, "HOLD", 1, 10000, 0⟩,
        ⟨3, 300, -2, "SELL", 0, 20000, 0⟩] := by
    norm_num [runBacktest, BacktestEngine.execute_trade, BacktestEngine.init, targetPosition]
  rw [htr]
  refine ⟨?_, by simp, by simp⟩
  simp [calculate_win_rate, winCounts]

/-- C6 (amended): `calculate_win_rate` counts only **adjacent** trade-log
pairs in which a BUY is immediately followed by a SELL; it equals 100
times the fraction of such adjacent pairs whose recorded capital
increased, and 0 when no adjacent BUY→SELL pair exists.  Intervening HOLD
records break a round-trip and make it invisible to the statistic. -/
theorem C6_amended (ts : List Trade) :
    calculate_win_rate ts =
      (if ((ts.zip ts.tail).countP fun p => decide (p.2.type = "SELL" ∧ p.1.type = "BUY")) = 0
       then 0
       else (((ts.zip ts.tail).countP fun p =>
                decide ((p.2.type = "SELL" ∧ p.1.type = "BUY") ∧ p.1.capital < p.2.capital)) : ℚ) /
            (((ts.zip ts.tail).countP fun p =>
                decide (p.2.type = "SELL" ∧ p.1.type = "BUY")) : ℚ) * 100) := by
  simp only [calculate_win_rate]
  rw [winCounts_eq]

/-- C8: the composite signal of a signal dictionary whose values lie in
[−2,2] is 0 when no weighted indicator is present, equals the weighted sum
of the present signals divided by the total present weight otherwise, and
always lies in [−2,2]. -/
theorem C8_composite (signals : List (String × ℤ))
    (h : ∀ p ∈ signals, -2 ≤ p.2 ∧ p.2 ≤ 2) :
    (signals.filterMap (fun p => weightFor p.1) = [] →
      generate_composite_signal signals = 0) ∧
    (signals.filterMap (fun p => weightFor p.1) ≠ [] →
      generate_composite_signal signals =
        (signals.filterMap (fun p => (weightFor p.1).map (fun w => (p.2 : ℚ) * w))).sum /
          (signals.filterMap (fun p => weightFor p.1)).sum) ∧
    -2 ≤ generate_composite_signal signals ∧ generate_composite_signal signals ≤ 2 := by
  have hfold := composite_foldl signals 0 0
  have hval : generate_composite_signal signals =
      (if 0 < (signals.filterMap (fun p => weightFor p.1)).sum then
        (signals.filterMap (fun p => (weightFor p.1).map (fun w => (p.2 : ℚ) * w))).sum /
          (signals.filterMap (fun p => weightFor p.1)).sum
      else 0) := by
    unfold generate_composite_signal
    rw [hfold]
    simp
  by_cases hnil : signals.filterMap (fun p => weightFor p.1) = []
  · have hS : signals.filterMap (fun p => (weightFor p.1).map (fun w => (p.2 : ℚ) * w)) = [] := by
      rw [List.filterMap_eq_nil_iff] at hnil ⊢
      intro p hp
      have := hnil p hp
      simp only [Option.map_eq_none']
      exact this
    rw [hval, hnil, hS]
    norm_num
  · have hpos : 0 < (signals.filterMap (fun p => weightFor p.1)).sum :=
      List.sum_pos _ (filterMap_weight_pos signals) hnil
    have hbound := composite_sum_bound signals h
    rw [abs_le] at hbound
    have hdiv : generate_composite_signal signals =
        (signals.filterMap (fun p => (weightFor p.1).map (fun w => (p.2 : ℚ) * w))).sum /
          (signals.filterMap (fun p => weightFor p.1)).sum := by
      rw [hval, if_pos hpos]
    refine ⟨fun hcon => absurd hcon hnil, fun _ => hdiv, ?_, ?_⟩
    · rw [hdiv, le_div_iff₀ hpos]
      linarith [hbound.1]
    · rw [hdiv, div_le_iff₀ hpos]
      linarith [hbound.2]

/-- C8 witness: the composite-signal properties evaluated on the concrete
dictionary {MVRV ↦ 2, SOPR ↦ −1}. -/
theorem C8_composite_witness :
    (∀ p ∈ ([(("MVRV" : String), (2 : ℤ)), ("SOPR", -1)] : List (String × ℤ)),
        -2 ≤ p.2 ∧ p.2 ≤ 2) ∧
    (([(("MVRV" : String), (2 : ℤ)), ("SOPR", -1)] : List (String × ℤ)).filterMap
        (fun p => weightFor p.1) = [] →
      generate_composite_signal [(("MVRV" : String), (2 : ℤ)), ("SOPR", -1)] = 0) ∧
    (([(("MVRV" : String), (2 : ℤ)), ("SOPR", -1)] : List (String × ℤ)).filterMap
        (fun p => weightFor p.1) ≠ [] →
      generate_composite_signal [(("MVRV" : String), (2 : ℤ)), ("SOPR", -1)] =
        (([(("MVRV" : String), (2 : ℤ)), ("SOPR", -1)] : List (String × ℤ)).filterMap
            (fun p => (weightFor p.1).map (fun w => (p.2 : ℚ) * w))).sum /
          (([(("MVRV" : String), (2 : ℤ)), ("SOPR", -1)] : List (String × ℤ)).filterMap
            (fun p => weightFor p.1)).sum) ∧
    -2 ≤ generate_composite_signal [(("MVRV" : String), (2 : ℤ)), ("SOPR", -1)] ∧
    generate_composite_signal [(("MVRV" : String), (2 : ℤ)), ("SOPR", -1)] ≤ 2 :=
  ⟨by decide, C8_composite _ (by decide)⟩

/-- C9: the backtest is deterministic — replaying the same chronological
stream through two freshly initialized engines with the same initial
capital yields the same whole engine state (trade log, equity curve and
final capital included). -/
theorem C9_determinism (stream : List (ℤ × ℚ × ℚ)) (c₁ c₂ : ℚ) (hc : c₁ = c₂)
    (_hs : Chronological stream) :
    runBacktest c₁ stream = runBacktest c₂ stream := by
  subst hc
  rfl

/-- C9 witness: determinism on a concrete two-step chronological stream. -/
theorem C9_determinism_witness :
    (10000 : ℚ) = 10000 ∧ Chronological [(1, 100, 2), (2, 110, 0)] ∧
    runBacktest 10000 [(1, 100, 2), (2, 110, 0)] =
      runBacktest 10000 [(1, 100, 2), (2, 110, 0)] :=
  ⟨rfl, by norm_num [Chronological, List.chain'_cons, List.chain'_singleton],
    C9_determinism [(1, 100, 2), (2, 110, 0)] 10000 10000 rfl
      (by norm_num [Chronological, List.chain'_cons, List.chain'_singleton])⟩

/-- C10: starting from a fresh engine (position 0), after any sequence of
`execute_trade` calls with arbitrary rational signals and prices the
position is always one of {0, 0.3, 0.6, 1}. -/
theorem C10_position_invariant (initial_capital : ℚ) (stream : List (ℤ × ℚ × ℚ)) :
    (runBacktest initial_capital stream).position ∈ ({0, 0.3, 0.6, 1} : Set ℚ) := by
  have hstep : ∀ (e : BacktestEngine) (d : ℤ) (p s : ℚ),
      e.position ∈ ({0, 0.3, 0.6, 1} : Set ℚ) →
      (e.execute_trade d p s).position ∈ ({0, 0.3, 0.6, 1} : Set ℚ) := by
    intro e d p s he
    show targetPosition s e.position ∈ _
    unfold targetPosition
    split_ifs <;> simp_all [Set.mem_insert_iff]
  have hfold : ∀ (l : List (ℤ × ℚ × ℚ)) (e : BacktestEngine),
      e.position ∈ ({0, 0.3, 0.6, 1} : Set ℚ) →
      (l.foldl (fun e step => e.execute_trade step.1 step.2.1 step.2.2) e).position ∈
        ({0, 0.3, 0.6, 1} : Set ℚ) := by
    intro l
    induction l with
    | nil => intro e he; exact he
    | cons hd tl ih => intro e he; exact ih _ (hstep e hd.1 hd.2.1 hd.2.2 he)
  exact hfold stream _ (by simp [BacktestEngine.init, Set.mem_insert_iff])

/-- C5 (counterexample): on the degenerate discretized input X = Y = [0]
(a single observation), the smoothed entropy H(Y) computed by the code is
-log2(1 + 1e-10) < 0 while the clamped information gain is 0, so the
claimed bound information_gain ≤ H(Y) fails. -/
theorem C5_counterexample :
    ¬ (IGRecord.information_gain (igFromDiscrete [((0 : ℤ), (0 : ℤ))]) ≤
        entropySm ([((0 : ℤ), (0 : ℤ))].map Prod.snd)) := by
  have hL := logb_one_add_eps_pos
  have hH : entropySm [(0 : ℤ)] = -(Real.logb 2 (1 + epsIG)) := by
    norm_num [entropySm, freqR]
  have hC : condEntropySm [((0 : ℤ), (0 : ℤ))] = -(Real.logb 2 (1 + epsIG)) := by
    norm_num [condEntropySm, freqR, entropySm]
  have hIG : IGRecord.information_gain (igFromDiscrete [((0 : ℤ), (0 : ℤ))]) = 0 := by
    show max 0 (entropySm ([((0 : ℤ), (0 : ℤ))].map Prod.snd) -
      condEntropySm [((0 : ℤ), (0 : ℤ))]) = 0
    rw [show ([((0 : ℤ), (0 : ℤ))].map Prod.snd) = [(0 : ℤ)] from rfl, hH, hC]
    simp
  rw [hIG, show ([((0 : ℤ), (0 : ℤ))].map Prod.snd) = [(0 : ℤ)] from rfl, hH]
  simp only [not_le]
  linarith

/-- C5 (amended): for every nonempty pair of discretized label sequences,
the returned information_gain equals max(0, H(Y) − H(Y|X)) where both
entropies carry the code's 1e-10 smoothing inside log2; it is always ≥ 0,
and it is bounded above by H(Y) + log2(1 + 1e-10) — the clean bound
information_gain ≤ H(Y) can fail by up to the smoothing slack. -/
theorem C5_amended (ps : List (ℤ × ℤ)) (h : ps ≠ []) :
    IGRecord.information_gain (igFromDiscrete ps) =
      max 0 (entropySm (ps.map Prod.snd) - condEntropySm ps) ∧
    0 ≤ IGRecord.information_gain (igFromDiscrete ps) ∧
    IGRecord.information_gain (igFromDiscrete ps) ≤
      entropySm (ps.map Prod.snd) + Real.logb 2 (1 + epsIG) := by
  have hsnd : ps.map Prod.snd ≠ [] := by simpa using h
  have hHY := entropySm_ge hsnd
  have hcond := condEntropySm_ge h
  have hfirst : IGRecord.information_gain (igFromDiscrete ps) =
      max 0 (entropySm (ps.map Prod.snd) - condEntropySm ps) := rfl
  refine ⟨hfirst, ?_, ?_⟩
  · rw [hfirst]
    exact le_max_left _ _
  · rw [hfirst]
    apply max_le
    · linarith
    · linarith

/-- C5 witness: the amended information-gain properties evaluated at the
concrete discretized input [(0, 0)]. -/
theorem C5_amended_witness :
    ([((0 : ℤ), (0 : ℤ))] : List (ℤ × ℤ)) ≠ [] ∧
    (IGRecord.information_gain (igFromDiscrete [((0 : ℤ), (0 : ℤ))]) =
      max 0 (entropySm ([((0 : ℤ), (0 : ℤ))].map Prod.snd) -
        condEntropySm [((0 : ℤ), (0 : ℤ))]) ∧
    0 ≤ IGRecord.information_gain (igFromDiscrete [((0 : ℤ), (0 : ℤ))]) ∧
    IGRecord.information_gain (igFromDiscrete [((0 : ℤ), (0 : ℤ))]) ≤
      entropySm ([((0 : ℤ), (0 : ℤ))].map Prod.snd) + Real.logb 2 (1 + epsIG)) :=
  ⟨by simp, C5_amended _ (by simp)⟩

/-- Below 100 joined rows, `advHorizonScore` skips the horizon. -/
theorem advHorizonScore_small (corrF : List (ℚ × ℚ) → ℝ)
    (df : List (ℤ × ℚ × ℚ)) (horizon : ℕ) (hlt : df.length < 100) :
    advHorizonScore corrF df horizon = none := by
  unfold advHorizonScore
  rw [if_pos hlt]

/-- Below 100 valid rows, `calculate_information_gain` returns the empty
dict. -/
theorem calculate_information_gain_small (data : List (Option ℚ × Option ℚ))
    (h : data.length < 100) : calculate_information_gain data = none := by
  simp only [calculate_information_gain]
  rw [if_pos (lt_of_le_of_lt (List.length_filterMap_le _ _) h)]

/-- Below 100 valid rows, `calculate_mutual_information` returns the empty
dict. -/
theorem calculate_mutual_information_small (E : ExternalEstimators)
    (pairs : List (ℚ × Option ℚ)) (discrete : Bool) (h : pairs.length < 100) :
    calculate_mutual_information E pairs discrete = none := by
  simp only [calculate_mutual_information]
  rw [if_pos (lt_of_le_of_lt (List.length_filterMap_le _ _) h)]

/-- When the joined frame has fewer than 100 rows, every field of a
per-horizon record that is derived from `calculate_information_gain` is
defaulted to 0. -/
theorem horizonRecord_small (E : ExternalEstimators) (ind prices : List ℚ)
    (h : ℕ) (hlt : ind.length < 100) :
    HorizonMetrics.information_gain (horizonRecord E ind prices h) = 0 ∧
    HorizonMetrics.gain_ratio (horizonRecord E ind prices h) = 0 ∧
    HorizonMetrics.symmetric_uncertainty (horizonRecord E ind prices h) = 0 ∧
    HorizonMetrics.reduction_ratio (horizonRecord E ind prices h) = 0 := by
  have hzip : ((ind.map some).zip ((List.range prices.length).map (fun t =>
      if t + h < prices.length then some (prices.getD (t + h) 0 / prices.getD t 0 - 1)
      else none))).length < 100 := by
    rw [List.length_zip, List.length_map]
    exact lt_of_le_of_lt (min_le_left _ _) hlt
  have hnone := calculate_information_gain_small _ hzip
  simp only [horizonRecord]
  rw [hnone]
  simp

/-! ## Claim theorems: information-gain analyzers -/

/-- C3 (counterexample): on a five-point input (far below the 100-row
minimum) with horizon set {1}, `analyze_predictive_information` does NOT
omit the horizon: horizon 1 appears in the output map, and it carries an
information_gain of exactly 0. -/
theorem C3_counterexample :
    (innerJoin exSeries exSeries).length < 100 ∧
    (analyze_predictive_information zeroEstimators exSeries exSeries [1]).map Prod.fst =
      [1] ∧
    (analyze_predictive_information zeroEstimators exSeries exSeries [1]).head?.map
      (fun p => HorizonMetrics.information_gain p.2) = some 0 := by
  have hlt : (innerJoin exSeries exSeries).length < 100 :=
    lt_of_le_of_lt (List.length_filterMap_le _ _) (by norm_num [exSeries])
  have hig := horizonRecord_small zeroEstimators
    ((innerJoin exSeries exSeries).map (fun r => r.2.1))
    ((innerJoin exSeries exSeries).map (fun r => r.2.2)) 1
    (by rwa [List.length_map])
  exact ⟨hlt, by simp [analyze_predictive_information],
    by simp [analyze_predictive_information, hig.1]⟩

/-- C3 (amended): the advanced scanner
(`calculate_information_gain_multi_horizon`) does omit under-populated
horizons — with fewer than 100 aligned rows its output map is empty — but
`analyze_predictive_information` includes every requested horizon
unconditionally, and when the aligned row count is below 100 such a
horizon is scored with information_gain (and the other
information-gain-derived fields) equal to 0. -/
theorem C3_amended :
    (∀ (corrF : List (ℚ × ℚ) → ℝ) (indicator price : List (ℤ × ℚ))
        (horizons : List ℕ),
      (innerJoin indicator price).length < 100 →
      calculate_information_gain_multi_horizon corrF indicator price horizons = []) ∧
    (∀ (E : ExternalEstimators) (indicator price : List (ℤ × ℚ)) (horizons : List ℕ),
      (analyze_predictive_information E indicator price horizons).map Prod.fst =
        horizons) ∧
    (∀ (E : ExternalEstimators) (indicator price : List (ℤ × ℚ)) (horizons : List ℕ)
        (h : ℕ) (r : HorizonMetrics),
      (innerJoin indicator price).length < 100 →
      (h, r) ∈ analyze_predictive_information E indicator price horizons →
      HorizonMetrics.information_gain r = 0 ∧ HorizonMetrics.gain_ratio r = 0 ∧
        HorizonMetrics.symmetric_uncertainty r = 0 ∧
        HorizonMetrics.reduction_ratio r = 0) := by
  refine ⟨?_, ?_, ?_⟩
  · intro corrF indicator price horizons hlt
    simp only [calculate_information_gain_multi_horizon]
    rw [List.filterMap_eq_nil_iff]
    intro a _
    rw [advHorizonScore_small _ _ _ hlt]
    rfl
  · intro E indicator price horizons
    simp [analyze_predictive_information, List.map_map, Function.comp_def]
  · intro E indicator price horizons h r hlt hmem
    simp only [analyze_predictive_information, List.mem_map] at hmem
    obtain ⟨h', _, heq⟩ := hmem
    have hr : r = horizonRecord E ((innerJoin indicator price).map (fun q => q.2.1))
        ((innerJoin indicator price).map (fun q => q.2.2)) h' := by
      have := congrArg Prod.snd heq
      simpa using this.symm
    subst hr
    exact horizonRecord_small _ _ _ _ (by rwa [List.length_map])

/-- C3 witness: both scanners evaluated on the concrete five-point series:
the advanced scanner's map is empty, while the basic analyzer's map keeps
horizon 1 with information_gain 0. -/
theorem C3_amended_witness :
    (innerJoin exSeries exSeries).length < 100 ∧
    calculate_information_gain_multi_horizon (fun _ => 0) exSeries exSeries
      [1, 7, 30] = [] ∧
    (analyze_predictive_information zeroEstimators exSeries exSeries [1]).map
      Prod.fst = [1] ∧
    ((1, horizonRecord zeroEstimators ((innerJoin exSeries exSeries).map (fun q => q.2.1))
        ((innerJoin exSeries exSeries).map (fun q => q.2.2)) 1) ∈
      analyze_predictive_information zeroEstimators exSeries exSeries [1]) ∧
    HorizonMetrics.information_gain (horizonRecord zeroEstimators
      ((innerJoin exSeries exSeries).map (fun q => q.2.1))
      ((innerJoin exSeries exSeries).map (fun q => q.2.2)) 1) = 0 := by
  have hlt : (innerJoin exSeries exSeries).length < 100 :=
    lt_of_le_of_lt (List.length_filterMap_le _ _) (by norm_num [exSeries])
  have hmem : (1, horizonRecord zeroEstimators
      ((innerJoin exSeries exSeries).map (fun q => q.2.1))
      ((innerJoin exSeries exSeries).map (fun q => q.2.2)) 1) ∈
      analyze_predictive_information zeroEstimators exSeries exSeries [1] := by
    simp [analyze_predictive_information]
  exact ⟨hlt, C3_amended.1 (fun _ => 0) exSeries exSeries [1, 7, 30] hlt,
    C3_amended.2.1 zeroEstimators exSeries exSeries [1], hmem,
    (C3_amended.2.2 zeroEstimators exSeries exSeries [1] 1 _ hlt hmem).1⟩

/-! ## Argmax lemmas for the horizon optimum -/

/-- `argmaxIdx` returns a valid index on nonempty lists. -/
theorem argmaxIdx_lt_length : ∀ (l : List ℝ), l ≠ [] → argmaxIdx l < l.length
  | [], h => absurd rfl h
  | [_], _ => by simp [argmaxIdx]
  | a :: b :: rest, _ => by
    have ih := argmaxIdx_lt_length (b :: rest) (by simp)
    have hdef : argmaxIdx (a :: b :: rest) =
        if a < (b :: rest).getD (argmaxIdx (b :: rest)) 0 then
          argmaxIdx (b :: rest) + 1 else 0 := rfl
    rw [hdef]
    by_cases hc : a < (b :: rest).getD (argmaxIdx (b :: rest)) 0
    · rw [if_pos hc]
      simpa using Nat.succ_lt_succ ih
    · rw [if_neg hc]
      simp

/-- The value at `argmaxIdx` dominates every entry. -/
theorem argmaxIdx_max : ∀ (l : List ℝ) (i : ℕ), i < l.length →
    l.getD i 0 ≤ l.getD (argmaxIdx l) 0
  | [], _, hi => by simp at hi
  | [x], i, hi => by
    have h0 : i = 0 := Nat.lt_one_iff.mp (by simpa using hi)
    subst h0
    simp [argmaxIdx]
  | a :: b :: rest, i, hi => by
    have hdef : argmaxIdx (a :: b :: rest) =
        if a < (b :: rest).getD (argmaxIdx (b :: rest)) 0 then
          argmaxIdx (b :: rest) + 1 else 0 := rfl
    rw [hdef]
    by_cases hc : a < (b :: rest).getD (argmaxIdx (b :: rest)) 0
    · rw [if_pos hc, List.getD_cons_succ]
      cases i with
      | zero =>
        rw [List.getD_cons_zero]
        exact hc.le
      | succ i' =>
        rw [List.getD_cons_succ]
        exact argmaxIdx_max (b :: rest) i' (by simpa using hi)
    · rw [if_neg hc, List.getD_cons_zero]
      cases i with
      | zero => rw [List.getD_cons_zero]
      | succ i' =>
        rw [List.getD_cons_succ]
        exact le_trans (argmaxIdx_max (b :: rest) i' (by simpa using hi)) (not_lt.mp hc)

/-- Entries strictly before `argmaxIdx` are strictly below the maximum:
`np.argmax` returns the FIRST maximizing index. -/
theorem argmaxIdx_first : ∀ (l : List ℝ) (i : ℕ), i < argmaxIdx l →
    l.getD i 0 < l.getD (argmaxIdx l) 0
  | [], _, hi => by simp [argmaxIdx] at hi
  | [_], _, hi => by simp [argmaxIdx] at hi
  | a :: b :: rest, i, hi => by
    have hdef : argmaxIdx (a :: b :: rest) =
        if a < (b :: rest).getD (argmaxIdx (b :: rest)) 0 then
          argmaxIdx (b :: rest) + 1 else 0 := rfl
    rw [hdef] at hi ⊢
    by_cases hc : a < (b :: rest).getD (argmaxIdx (b :: rest)) 0
    · rw [if_pos hc] at hi ⊢
      rw [List.getD_cons_succ]
      cases i with
      | zero =>
        rw [List.getD_cons_zero]
        exact hc
      | succ i' =>
        rw [List.getD_cons_succ]
        exact argmaxIdx_first (b :: rest) i' (by omega)
    · rw [if_neg hc] at hi
      omega

/-- For a metric `f`, the argmax entry of a nonempty horizon map: it is a
member, its value dominates all members, and under strictly ascending
keys it is the smallest key achieving the maximum. -/
theorem firstMax_props (m : List (ℕ × AdvMetrics)) (f : ℕ × AdvMetrics → ℝ)
    (hne : m ≠ []) :
    (∃ p ∈ m, p.1 = (m.map Prod.fst).getD (argmaxIdx (m.map f)) 0 ∧
      f p = (m.map f).getD (argmaxIdx (m.map f)) 0) ∧
    (∀ q ∈ m, f q ≤ (m.map f).getD (argmaxIdx (m.map f)) 0) ∧
    ((m.map Prod.fst).Pairwise (· < ·) →
      ∀ q ∈ m, f q = (m.map f).getD (argmaxIdx (m.map f)) 0 →
        (m.map Prod.fst).getD (argmaxIdx (m.map f)) 0 ≤ q.1) := by
  have hlen : argmaxIdx (m.map f) < m.length := by
    have := argmaxIdx_lt_length (m.map f) (by simpa using hne)
    simpa using this
  have hgetf : ∀ (g : ℕ × AdvMetrics → ℝ) (i : ℕ) (h : i < m.length),
      (m.map g).getD i 0 = g (m.get ⟨i, h⟩) := by
    intro g i h
    rw [List.getD_eq_getElem?_getD, List.getElem?_eq_getElem (by simpa using h)]
    simp
  have hgetfst : ∀ (i : ℕ) (h : i < m.length),
      (m.map Prod.fst).getD i 0 = (m.get ⟨i, h⟩).1 := by
    intro i h
    rw [List.getD_eq_getElem?_getD, List.getElem?_eq_getElem (by simpa using h)]
    simp
  refine ⟨⟨m.get ⟨argmaxIdx (m.map f), hlen⟩, List.get_mem m _ hlen, ?_, ?_⟩, ?_, ?_⟩
  · exact (hgetfst _ hlen).symm
  · exact (hgetf f _ hlen).symm
  · intro q hq
    rcases List.mem_iff_get.mp hq with ⟨⟨i, hi⟩, rfl⟩
    rw [← hgetf f i hi]
    have := argmaxIdx_max (m.map f) i (by simpa using hi)
    exact this
  · intro hsorted q hq hmax
    rcases List.mem_iff_get.mp hq with ⟨⟨i, hi⟩, rfl⟩
    by_cases hij : i < argmaxIdx (m.map f)
    · exfalso
      have hlt := argmaxIdx_first (m.map f) i hij
      rw [hgetf f i hi] at hlt
      exact absurd hmax (ne_of_lt hlt)
    · rcases Nat.lt_or_ge (argmaxIdx (m.map f)) i with hji | hji
      · have hp := List.pairwise_iff_get.mp hsorted
          ⟨argmaxIdx (m.map f), by simpa using hlen⟩ ⟨i, by simpa using hi⟩ hji
        rw [hgetfst _ hlen]
        have h1 : (m.map Prod.fst).get ⟨argmaxIdx (m.map f), by simpa using hlen⟩ =
            (m.get ⟨argmaxIdx (m.map f), hlen⟩).1 := by
          simp [List.getElem_map]
        have h2 : (m.map Prod.fst).get ⟨i, by simpa using hi⟩ = (m.get ⟨i, hi⟩).1 := by
          simp [List.getElem_map]
        rw [h1, h2] at hp
        exact hp.le
      · have heq : argmaxIdx (m.map f) = i := le_antisymm (not_lt.mp hij) hji
        rw [hgetfst _ hlen]
        subst heq
        exact le_refl _

/-- C7 (counterexample): on the result map {7 ↦ scores, 1 ↦ scores} with
an exact tie in information_gain (both 1), `find_optimal_horizon` returns
horizon 7 — the first inserted — not the smallest horizon 1 the claim
requires. -/
theorem C7_counterexample :
    (find_optimal_horizon [(7, ⟨1, 1, 1, 0, 0, 0, 0⟩), (1, ⟨1, 1, 1, 0, 0, 0, 0⟩)]).map
      (fun r => OptimalHorizon.optimal_horizon_ig r) = some 7 ∧
    ([((7 : ℕ), (⟨1, 1, 1, 0, 0, 0, 0⟩ : AdvMetrics)), (1, ⟨1, 1, 1, 0, 0, 0, 0⟩)].map
      (fun p => AdvMetrics.information_gain p.2)) = [1, 1] ∧
    (7 : ℕ) ≠ 1 := by
  have h1 : argmaxIdx [(1 : ℝ)] = 0 := rfl
  have ha : argmaxIdx [(1 : ℝ), 1] = 0 := by
    have hdef : argmaxIdx [(1 : ℝ), 1] =
        if (1 : ℝ) < [(1 : ℝ)].getD (argmaxIdx [(1 : ℝ)]) 0 then
          argmaxIdx [(1 : ℝ)] + 1 else 0 := rfl
    rw [hdef, h1]
    norm_num
  refine ⟨?_, by simp, by norm_num⟩
  unfold find_optimal_horizon
  rw [if_neg (by simp)]
  simp only [List.map_cons, List.map_nil, Option.map_some']
  norm_num [ha]

/-- C7 (amended): on every nonempty per-horizon result map,
`find_optimal_horizon` returns the argmax of information_gain, of
normalized mutual information and of |correlation|, where an exact tie is
broken towards the FIRST entry in the map's insertion order; when the
map's horizons are strictly ascending (as the scanner produces them) that
first entry is the smallest maximizing horizon. -/
theorem C7_amended (m : List (ℕ × AdvMetrics)) (hne : m ≠ [])
    (hsorted : (m.map Prod.fst).Pairwise (· < ·)) :
    ∃ r, find_optimal_horizon m = some r ∧
      ((∃ p ∈ m, p.1 = OptimalHorizon.optimal_horizon_ig r ∧
          AdvMetrics.information_gain p.2 = OptimalHorizon.max_ig r) ∧
        (∀ q ∈ m, AdvMetrics.information_gain q.2 ≤ OptimalHorizon.max_ig r) ∧
        (∀ q ∈ m, AdvMetrics.information_gain q.2 = OptimalHorizon.max_ig r →
          OptimalHorizon.optimal_horizon_ig r ≤ q.1)) ∧
      ((∃ p ∈ m, p.1 = OptimalHorizon.optimal_horizon_mi r ∧
          AdvMetrics.normalized_mi p.2 = OptimalHorizon.max_mi r) ∧
        (∀ q ∈ m, AdvMetrics.normalized_mi q.2 ≤ OptimalHorizon.max_mi r) ∧
        (∀ q ∈ m, AdvMetrics.normalized_mi q.2 = OptimalHorizon.max_mi r →
          OptimalHorizon.optimal_horizon_mi r ≤ q.1)) ∧
      ((∃ p ∈ m, p.1 = OptimalHorizon.optimal_horizon_corr r ∧
          |AdvMetrics.correlation p.2| = OptimalHorizon.max_correlation r) ∧
        (∀ q ∈ m, |AdvMetrics.correlation q.2| ≤ OptimalHorizon.max_correlation r) ∧
        (∀ q ∈ m, |AdvMetrics.correlation q.2| = OptimalHorizon.max_correlation r →
          OptimalHorizon.optimal_horizon_corr r ≤ q.1)) := by
  have hig := firstMax_props m (fun p => AdvMetrics.information_gain p.2) hne
  have hmi := firstMax_props m (fun p => AdvMetrics.normalized_mi p.2) hne
  have hco := firstMax_props m (fun p => |AdvMetrics.correlation p.2|) hne
  have hfo : find_optimal_horizon m = some
      ⟨(m.map Prod.fst).getD (argmaxIdx (m.map fun p => AdvMetrics.information_gain p.2)) 0,
       (m.map fun p => AdvMetrics.information_gain p.2).getD
         (argmaxIdx (m.map fun p => AdvMetrics.information_gain p.2)) 0,
       (m.map Prod.fst).getD (argmaxIdx (m.map fun p => AdvMetrics.normalized_mi p.2)) 0,
       (m.map fun p => AdvMetrics.normalized_mi p.2).getD
         (argmaxIdx (m.map fun p => AdvMetrics.normalized_mi p.2)) 0,
       (m.map Prod.fst).getD (argmaxIdx (m.map fun p => |AdvMetrics.correlation p.2|)) 0,
       (m.map fun p => |AdvMetrics.correlation p.2|).getD
         (argmaxIdx (m.map fun p => |AdvMetrics.correlation p.2|)) 0,
       m.map Prod.fst,
       m.map fun p => AdvMetrics.information_gain p.2⟩ := by
    unfold find_optimal_horizon
    rw [if_neg (by simpa using hne)]
  refine ⟨_, hfo, ⟨hig.1, hig.2.1, fun q hq hmax => hig.2.2 hsorted q hq hmax⟩,
    ⟨hmi.1, hmi.2.1, fun q hq hmax => hmi.2.2 hsorted q hq hmax⟩,
    ⟨hco.1, hco.2.1, fun q hq hmax => hco.2.2 hsorted q hq hmax⟩⟩

/-- C7 witness: the amended optimum properties evaluated on a concrete
two-horizon map with ascending keys. -/
theorem C7_amended_witness :
    ([((1 : ℕ), (⟨0, 0, 0, 0, 0, 0, 0⟩ : AdvMetrics)), (7, ⟨1, 1, 1, 0, 0, 0, 0⟩)] ≠
      ([] : List (ℕ × AdvMetrics))) ∧
    ((([((1 : ℕ), (⟨0, 0, 0, 0, 0, 0, 0⟩ : AdvMetrics)),
        (7, ⟨1, 1, 1, 0, 0, 0, 0⟩)]).map Prod.fst).Pairwise (· < ·)) ∧
    (∃ r, find_optimal_horizon [((1 : ℕ), (⟨0, 0, 0, 0, 0, 0, 0⟩ : AdvMetrics)),
        (7, ⟨1, 1, 1, 0, 0, 0, 0⟩)] = some r ∧
      ((∃ p ∈ [((1 : ℕ), (⟨0, 0, 0, 0, 0, 0, 0⟩ : AdvMetrics)), (7, ⟨1, 1, 1, 0, 0, 0, 0⟩)],
          p.1 = OptimalHorizon.optimal_horizon_ig r ∧
          AdvMetrics.information_gain p.2 = OptimalHorizon.max_ig r) ∧
        (∀ q ∈ [((1 : ℕ), (⟨0, 0, 0, 0, 0, 0, 0⟩ : AdvMetrics)), (7, ⟨1, 1, 1, 0, 0, 0, 0⟩)],
          AdvMetrics.information_gain q.2 ≤ OptimalHorizon.max_ig r) ∧
        (∀ q ∈ [((1 : ℕ), (⟨0, 0, 0, 0, 0, 0, 0⟩ : AdvMetrics)), (7, ⟨1, 1, 1, 0, 0, 0, 0⟩)],
          AdvMetrics.information_gain q.2 = OptimalHorizon.max_ig r →
          OptimalHorizon.optimal_horizon_ig r ≤ q.1)) ∧
      ((∃ p ∈ [((1 : ℕ), (⟨0, 0, 0, 0, 0, 0, 0⟩ : AdvMetrics)), (7, ⟨1, 1, 1, 0, 0, 0, 0⟩)],
          p.1 = OptimalHorizon.optimal_horizon_mi r ∧
          AdvMetrics.normalized_mi p.2 = OptimalHorizon.max_mi r) ∧
        (∀ q ∈ [((1 : ℕ), (⟨0, 0, 0, 0, 0, 0, 0⟩ : AdvMetrics)), (7, ⟨1, 1, 1, 0, 0, 0, 0⟩)],
          AdvMetrics.normalized_mi q.2 ≤ OptimalHorizon.max_mi r) ∧
        (∀ q ∈ [((1 : ℕ), (⟨0, 0, 0, 0, 0, 0, 0⟩ : AdvMetrics)), (7, ⟨1, 1, 1, 0, 0, 0, 0⟩)],
          AdvMetrics.normalized_mi q.2 = OptimalHorizon.max_mi r →
          OptimalHorizon.optimal_horizon_mi r ≤ q.1)) ∧
      ((∃ p ∈ [((1 : ℕ), (⟨0, 0, 0, 0, 0, 0, 0⟩ : AdvMetrics)), (7, ⟨1, 1, 1, 0, 0, 0, 0⟩)],
          p.1 = OptimalHorizon.optimal_horizon_corr r ∧
          |AdvMetrics.correlation p.2| = OptimalHorizon.max_correlation r) ∧
        (∀ q ∈ [((1 : ℕ), (⟨0, 0, 0, 0, 0, 0, 0⟩ : AdvMetrics)), (7, ⟨1, 1, 1, 0, 0, 0, 0⟩)],
          |AdvMetrics.correlation q.2| ≤ OptimalHorizon.max_correlation r) ∧
        (∀ q ∈ [((1 : ℕ), (⟨0, 0, 0, 0, 0, 0, 0⟩ : AdvMetrics)), (7, ⟨1, 1, 1, 0, 0, 0, 0⟩)],
          |AdvMetrics.correlation q.2| = OptimalHorizon.max_correlation r →
          OptimalHorizon.optimal_horizon_corr r ≤ q.1))) :=
  ⟨by simp, by norm_num [List.pairwise_cons],
    C7_amended _ (by simp) (by norm_num [List.pairwise_cons])⟩

end Glassnode
